import Mathlib

/-!
Verification of the ordered key-value Tree layer and the DML statement
compilation of an embeddable SQL engine, as a shallow embedding in Lean 4.

Byte strings are modelled as `List Nat` (each element a byte value), ordered
lexicographically by `lexLt`.  The physical KV store is an external
collaborator of the repository; its documented contract (an iterator over a
`[LowerBound, UpperBound)` byte slice, ascending or descending) is modelled
by filtering the stored keys.
-/

namespace Genji

/-- A byte, represented as a natural number (0..255 in well-formed data). -/
abbrev Byte := Nat

/-- Strict lexicographic order on byte strings: the empty string is below
every non-empty string, and comparison is byte-by-byte otherwise. -/
def lexLt : List Byte → List Byte → Bool
  | _, [] => false
  | [], _ :: _ => true
  | a :: s, b :: t => if a < b then true else if a = b then lexLt s t else false

/-- Non-strict lexicographic order, defined from `lexLt` by totality. -/
def lexLe (x y : List Byte) : Bool := !lexLt y x

theorem lexLt_nil_right (s : List Byte) : lexLt s [] = false := by
  cases s <;> rfl

theorem lexLt_irrefl (x : List Byte) : lexLt x x = false := by
  induction x with
  | nil => rfl
  | cons a s ih => simp [lexLt, ih]

theorem lexLt_asymm {x y : List Byte} (h : lexLt x y = true) : lexLt y x = false := by
  induction x generalizing y with
  | nil =>
    cases y with
    | nil => simp [lexLt] at h
    | cons b t => rfl
  | cons a s ih =>
    cases y with
    | nil => simp [lexLt] at h
    | cons b t =>
      by_cases hab : a < b
      · have : ¬ b < a := Nat.lt_asymm hab
        have : ¬ b = a := fun he => absurd (he ▸ hab) (Nat.lt_irrefl _)
        simp [lexLt, *]
      · by_cases heq : a = b
        · subst heq
          simp only [lexLt, if_neg (Nat.lt_irrefl a), if_pos rfl] at h ⊢
          exact ih h
        · simp [lexLt, hab, heq] at h

theorem lexLt_cons_same (a : Byte) {s t : List Byte} (h : lexLt s t = true) :
    lexLt (a :: s) (a :: t) = true := by
  simp [lexLt, h]

theorem lexLt_connected {x y : List Byte} (h : x ≠ y) :
    lexLt x y = true ∨ lexLt y x = true := by
  induction x generalizing y with
  | nil =>
    cases y with
    | nil => exact absurd rfl h
    | cons b t => left; rfl
  | cons a s ih =>
    cases y with
    | nil => right; rfl
    | cons b t =>
      rcases Nat.lt_trichotomy a b with hab | hab | hab
      · left; simp [lexLt, hab]
      · subst hab
        have hst : s ≠ t := fun he => h (by rw [he])
        rcases ih hst with h' | h'
        · left; simp [lexLt, h']
        · right; simp [lexLt, h']
      · right; simp [lexLt, hab]

/-- Appending after a common prefix does not change the comparison. -/
theorem lexLt_append_cancel (p s t : List Byte) :
    lexLt (p ++ s) (p ++ t) = lexLt s t := by
  induction p with
  | nil => rfl
  | cons a q ih => simp [lexLt, ih]

theorem lexLe_append_cancel (p s t : List Byte) :
    lexLe (p ++ s) (p ++ t) = lexLe s t := by
  simp [lexLe, lexLt_append_cancel]

/-- A proper extension is strictly above the string it extends. -/
theorem lexLt_self_append (x : List Byte) (a : Byte) (s : List Byte) :
    lexLt x (x ++ a :: s) = true := by
  have h := lexLt_append_cancel x [] (a :: s)
  simpa using h

/-- Every string is below or equal to each of its extensions. -/
theorem lexLe_self_append (x s : List Byte) : lexLe x (x ++ s) = true := by
  have h := lexLt_append_cancel x s []
  simp only [lexLe]
  have : lexLt (x ++ s) x = false := by
    have hx : x ++ ([] : List Byte) = x := by simp
    calc lexLt (x ++ s) x = lexLt (x ++ s) (x ++ []) := by rw [hx]
    _ = lexLt s [] := lexLt_append_cancel x s []
    _ = false := lexLt_nil_right s
  simp [this]

theorem lexLe_of_lexLt {x y : List Byte} (h : lexLt x y = true) : lexLe x y = true := by
  simp [lexLe, lexLt_asymm h]

theorem lexLe_refl (x : List Byte) : lexLe x x = true := by
  simp [lexLe, lexLt_irrefl]

/-- Strict comparison of equal-length strings transfers to arbitrary
extensions on both sides. -/
theorem lexLt_append_of_lexLt_samelen {x y : List Byte}
    (hlen : x.length = y.length) (h : lexLt x y = true) (s t : List Byte) :
    lexLt (x ++ s) (y ++ t) = true := by
  induction x generalizing y with
  | nil =>
    cases y with
    | nil => simp [lexLt_irrefl] at h
    | cons b u => simp at hlen
  | cons a u ih =>
    cases y with
    | nil => simp [lexLt] at h
    | cons b v =>
      by_cases hab : a < b
      · simp [lexLt, hab]
      · by_cases heq : a = b
        · subst heq
          simp only [lexLt, if_neg (Nat.lt_irrefl a), if_pos rfl] at h
          have hlen' : u.length = v.length := by simpa using hlen
          simp only [List.cons_append, lexLt, if_neg (Nat.lt_irrefl a), if_pos rfl]
          exact ih hlen' h
        · simp [lexLt, hab, heq] at h

/-! ## The key-value layer

The physical KV store (`kv` package, pebble-backed) is an external
collaborator; the definitions below model its documented contract: a
namespace owns an id that is prepended to every persisted key
(`kv.BuildKey`), exposes the first byte key not in the namespace
(`UpperBound`), and iterators visit exactly the stored keys inside the
half-open byte interval `[LowerBound, UpperBound)`. -/

/-- Modelled from the spec: `ArrayValueDelim`, the delimiter byte written
between the encoded elements of a composite key.  The `types/encoding`
package defining the constant is not under src/; no theorem below depends on
its exact value. -/
def ArrayValueDelim : Byte := 0x1f

/-- `kv.BuildKey`: prepend the namespace id to a logical key. -/
def kvBuildKey (id key : List Byte) : List Byte := id ++ key

/-- A namespace of the byte store: id prefix, its `UpperBound()` key, and the
stored raw `(key, value)` entries. -/
structure Namespace where
  ID : List Byte
  ub : List Byte
  store : List (List Byte × List Byte)

def Namespace.UpperBound (ns : Namespace) : List Byte := ns.ub

def Namespace.Put (ns : Namespace) (key enc : List Byte) : Namespace :=
  let raw := kvBuildKey ns.ID key
  { ns with store := ns.store.filter (fun kv => !(kv.1 == raw)) ++ [(raw, enc)] }

def Namespace.Get (ns : Namespace) (key : List Byte) : Option (List Byte) :=
  (ns.store.find? (fun kv => kv.1 == kvBuildKey ns.ID key)).map (fun kv => kv.2)

def Namespace.Delete (ns : Namespace) (key : List Byte) : Namespace :=
  { ns with store := ns.store.filter (fun kv => !(kv.1 == kvBuildKey ns.ID key)) }

/-- A transient store: same contract, but no namespace id. -/
structure TransientStore where
  store : List (List Byte × List Byte)

def TransientStore.Put (ts : TransientStore) (key enc : List Byte) : TransientStore :=
  { store := ts.store.filter (fun kv => !(kv.1 == key)) ++ [(key, enc)] }

/-- `p` is a byte-wise initial segment of `k`. -/
def isPref : List Byte → List Byte → Bool
  | [], _ => true
  | _ :: _, [] => false
  | a :: p, b :: k => a == b && isPref p k

/-- `bytes.TrimPrefix`: drop `p` from the front of `k` when it is an initial
segment of `k`, return `k` unchanged otherwise. -/
def trimPref (p k : List Byte) : List Byte :=
  if isPref p k then k.drop p.length else k

/-! ## The Tree -/

/-- The outcome of a Tree operation: normal result, error, or a Go panic. -/
inductive TreeResult (α : Type) where
  | ok : α → TreeResult α
  | err : String → TreeResult α
  | panicked : String → TreeResult α
deriving Repr, DecidableEq

/-- `tree.Tree`: pairs a `Namespace` or a `TransientStore` with a codec.
The codec is an external parameter; values are kept as their encoded bytes. -/
structure Tree where
  Namespace : Option Genji.Namespace
  TransientStore : Option Genji.TransientStore

def Tree.buildKey (t : Tree) (key : List Byte) : List Byte :=
  match t.Namespace with
  | some ns => kvBuildKey ns.ID key
  | none => key

def Tree.buildFirstKey (t : Tree) : List Byte := t.buildKey []

def Tree.buildLastKey (t : Tree) : List Byte :=
  match t.Namespace with
  | some ns => ns.UpperBound
  | none => [0xFF]

def Tree.buildStartKeyInclusive (t : Tree) (key : List Byte) : List Byte :=
  t.buildKey key

def Tree.buildStartKeyExclusive (t : Tree) (key : List Byte) : List Byte :=
  t.buildKey key ++ [ArrayValueDelim, 0xFF]

def Tree.buildEndKeyInclusive (t : Tree) (key : List Byte) : List Byte :=
  t.buildKey key ++ [ArrayValueDelim, 0xFF]

def Tree.buildEndKeyExclusive (t : Tree) (key : List Byte) : List Byte :=
  t.buildKey key

/-- `tree.Range`: optional min and max keys, both inclusive unless
`Exclusive` is set. -/
structure Range where
  Min : Option (List Byte)
  Max : Option (List Byte)
  Exclusive : Bool

/-- `Tree.Put`: encode the value (a single `0x00` byte for a nil document)
and store it, replacing any existing entry. -/
def Tree.Put (t : Tree) (key : List Byte) (d : Option (List Byte)) :
    TreeResult (Tree × List Byte) :=
  let enc := match d with
    | some bytes => bytes
    | none => [0]
  match t.TransientStore with
  | some ts => .ok ({ t with TransientStore := some (ts.Put key enc) }, enc)
  | none =>
    match t.Namespace with
    | some ns => .ok ({ t with Namespace := some (ns.Put key enc) }, enc)
    | none => .err "no store"

/-- `Tree.Get`: panics on a transient tree, otherwise looks the key up in the
namespace. -/
def Tree.Get (t : Tree) (key : List Byte) : TreeResult (List Byte) :=
  match t.TransientStore with
  | some _ => .panicked "Get not implemented on transient tree"
  | none =>
    match t.Namespace with
    | some ns =>
      match ns.Get key with
      | some v => .ok v
      | none => .err "key not found"
    | none => .err "no store"

/-- `Tree.Exists`: panics on a transient tree. -/
def Tree.Exists (t : Tree) (key : List Byte) : TreeResult Bool :=
  match t.TransientStore with
  | some _ => .panicked "Exists not implemented on transient tree"
  | none =>
    match t.Namespace with
    | some ns => .ok (ns.Get key).isSome
    | none => .err "no store"

/-- `Tree.Delete`: panics on a transient tree, errors if the key is absent. -/
def Tree.Delete (t : Tree) (key : List Byte) : TreeResult Tree :=
  match t.TransientStore with
  | some _ => .panicked "Delete not implemented on transient tree"
  | none =>
    match t.Namespace with
    | some ns =>
      match ns.Get key with
      | some _ => .ok { t with Namespace := some (ns.Delete key) }
      | none => .err "key not found"
    | none => .err "no store"

/-- `Tree.Truncate`: panics on a transient tree, otherwise removes every key
of the namespace. -/
def Tree.Truncate (t : Tree) : TreeResult Tree :=
  match t.TransientStore with
  | some _ => .panicked "Truncate not implemented on transient tree"
  | none =>
    match t.Namespace with
    | some ns => .ok { t with Namespace := some { ns with store := [] } }
    | none => .err "no store"

/-- The byte bounds `(start, end)` that `Tree.IterateOnRange` derives from a
range, mirroring the two `if !rng.Exclusive` branches of the source. -/
def Tree.rangeBounds (t : Tree) (rng : Range) : List Byte × List Byte :=
  if !rng.Exclusive then
    (match rng.Min with
     | none => t.buildFirstKey
     | some k => t.buildStartKeyInclusive k,
     match rng.Max with
     | none => t.buildLastKey
     | some k => t.buildEndKeyInclusive k)
  else
    (match rng.Min with
     | none => t.buildFirstKey
     | some k => t.buildStartKeyExclusive k,
     match rng.Max with
     | none => t.buildLastKey
     | some k => t.buildEndKeyExclusive k)

/-- The entries the underlying iterator draws from. -/
def Tree.storeEntries (t : Tree) : List (List Byte × List Byte) :=
  match t.TransientStore with
  | some ts => ts.store
  | none =>
    match t.Namespace with
    | some ns => ns.store
    | none => []

/-- `Tree.IterateOnRange`: the `(key, value)` pairs handed to the callback, in
visit order.  A `none` range stands for the Go `nil` range (replaced by the
empty `&Range` in the source).  The iterator itself is the external KV
layer's: it yields the stored keys inside `[start, end)`, ascending, or
descending when `reverse` is set; each visited key is passed through
`bytes.TrimPrefix` with the namespace prefix `buildKey(nil)`. -/
def Tree.IterateOnRange (t : Tree) (rng : Option Range) (reverse : Bool) :
    List (List Byte × List Byte) :=
  let r := match rng with
    | none => ({ Min := none, Max := none, Exclusive := false } : Range)
    | some r => r
  let bounds := t.rangeBounds r
  let visited := t.storeEntries.filter
      (fun kv => lexLe bounds.1 kv.1 && lexLt kv.1 bounds.2)
  let visited := if reverse then visited.reverse else visited
  let pre := t.buildKey []
  visited.map (fun kv => (trimPref pre kv.1, kv.2))

/-! ## Basic facts about the embedded store -/

theorem isPref_append (p s : List Byte) : isPref p (p ++ s) = true := by
  induction p with
  | nil => rfl
  | cons a q ih => simp [isPref, ih]

theorem isPref_eq_append_drop {p k : List Byte} (h : isPref p k = true) :
    p ++ k.drop p.length = k := by
  induction p generalizing k with
  | nil => simp
  | cons a q ih =>
    cases k with
    | nil => simp [isPref] at h
    | cons b l =>
      simp only [isPref, Bool.and_eq_true, beq_iff_eq] at h
      obtain ⟨hab, hpk⟩ := h
      subst hab
      simpa using ih hpk

theorem trimPref_append (p s : List Byte) : trimPref p (p ++ s) = s := by
  simp [trimPref, isPref_append]

/-- Whether `Tree.IterateOnRange` hands the callback the logical key `x`. -/
def Tree.visits (t : Tree) (rng : Option Range) (reverse : Bool)
    (x : List Byte) : Bool :=
  (t.IterateOnRange rng reverse).any (fun kv => kv.1 == x)

/-- Membership characterisation of `Tree.IterateOnRange` on a namespace tree
whose stored keys all carry the namespace id prefix: the logical key `x` is
visited exactly when its raw key is stored and lies inside the byte bounds
derived from the range. -/
theorem visits_iff_bounds (ns : Namespace)
    (hpr : ∀ kv ∈ ns.store, isPref ns.ID kv.1 = true)
    (rng : Range) (reverse : Bool) (x : List Byte) :
    Tree.visits ⟨some ns, none⟩ (some rng) reverse x = true ↔
      ∃ v, (kvBuildKey ns.ID x, v) ∈ ns.store ∧
        lexLe (Tree.rangeBounds ⟨some ns, none⟩ rng).1 (kvBuildKey ns.ID x) = true ∧
        lexLt (kvBuildKey ns.ID x) (Tree.rangeBounds ⟨some ns, none⟩ rng).2 = true := by
  have hpre : Tree.buildKey ⟨some ns, none⟩ [] = ns.ID := by
    simp [Tree.buildKey, kvBuildKey]
  constructor
  · intro h
    simp only [Tree.visits, Tree.IterateOnRange, Tree.storeEntries, hpre,
      List.any_eq_true] at h
    obtain ⟨kv, hmem, heq⟩ := h
    rw [List.mem_map] at hmem
    obtain ⟨kv0, hmem0, hf⟩ := hmem
    have hmem1 : kv0 ∈ ns.store.filter
        (fun kv => lexLe (Tree.rangeBounds ⟨some ns, none⟩ rng).1 kv.1 &&
          lexLt kv.1 (Tree.rangeBounds ⟨some ns, none⟩ rng).2) := by
      by_cases hrev : reverse
      · simpa [hrev] using hmem0
      · simpa [hrev] using hmem0
    rw [List.mem_filter] at hmem1
    obtain ⟨hstore, hband⟩ := hmem1
    have hp := hpr kv0 hstore
    have hsplit : ns.ID ++ kv0.1.drop ns.ID.length = kv0.1 := isPref_eq_append_drop hp
    have hkey : trimPref ns.ID kv0.1 = kv0.1.drop ns.ID.length := by
      simp [trimPref, hp]
    have hxeq : kv0.1.drop ns.ID.length = x := by
      have : kv.1 = trimPref ns.ID kv0.1 := by rw [← hf]
      rw [hkey] at this
      have hx : kv.1 = x := by simpa using heq
      rw [← this, hx]
    have hraw : kv0.1 = kvBuildKey ns.ID x := by
      rw [kvBuildKey, ← hxeq, hsplit]
    refine ⟨kv0.2, ?_, ?_, ?_⟩
    · rw [← hraw]; exact hstore
    · rw [← hraw]; exact (Bool.and_eq_true _ _ |>.mp hband).1
    · rw [← hraw]; exact (Bool.and_eq_true _ _ |>.mp hband).2
  · rintro ⟨v, hstore, hlo, hhi⟩
    simp only [Tree.visits, Tree.IterateOnRange, Tree.storeEntries, hpre,
      List.any_eq_true]
    refine ⟨(x, v), ?_, by simp⟩
    rw [List.mem_map]
    refine ⟨(kvBuildKey ns.ID x, v), ?_, ?_⟩
    · have hfil : (kvBuildKey ns.ID x, v) ∈ ns.store.filter
          (fun kv => lexLe (Tree.rangeBounds ⟨some ns, none⟩ rng).1 kv.1 &&
            lexLt kv.1 (Tree.rangeBounds ⟨some ns, none⟩ rng).2) := by
        rw [List.mem_filter]
        exact ⟨hstore, by simp [hlo, hhi]⟩
      by_cases hrev : reverse
      · simpa [hrev] using hfil
      · simpa [hrev] using hfil
    · simp [kvBuildKey, trimPref_append]

theorem bool_eq_of_iff {a b : Bool} (h : a = true ↔ b = true) : a = b := by
  cases a <;> cases b <;> simp_all

theorem visits_false_of_lower (ns : Namespace)
    (hpr : ∀ kv ∈ ns.store, isPref ns.ID kv.1 = true)
    (rng : Range) (rev : Bool) (y : List Byte)
    (hy : lexLe (Tree.rangeBounds ⟨some ns, none⟩ rng).1 (kvBuildKey ns.ID y) = false) :
    Tree.visits ⟨some ns, none⟩ (some rng) rev y = false := by
  rw [Bool.eq_false_iff]
  intro hv
  obtain ⟨v, _, hlo, _⟩ := (visits_iff_bounds ns hpr rng rev y).mp hv
  rw [hy] at hlo
  exact Bool.false_ne_true hlo

/-- C1: for every range and every key `x` stored in the tree's namespace,
`Tree.IterateOnRange` visits `x` iff `x` satisfies the range's semantic
predicate.  With an exclusive min `k` the lower byte bound is
`k ++ [ArrayValueDelim, 0xFF]` — so `k` and every key extending `k` is
skipped; with an inclusive max `k` the exclusive upper byte bound is
`k ++ [ArrayValueDelim, 0xFF]` — so `k` and every stored key extending `k`
is included; with an exclusive max `k` the upper bound is `k` itself; an
unset min starts at the namespace's first key and an unset max ends at the
namespace's `UpperBound`; reverse iteration uses the same bounds and visits
the same keys, in reversed order.  Keys extending `k` never carry a raw
`0xFF` right after the delimiter (their next element starts with a type
tag), which appears as the `h < 0xFF` hypotheses. -/
theorem iterateOnRange_range_semantics
    (ns : Namespace) (t : Tree) (ht : t = ⟨some ns, none⟩)
    (hpr : ∀ kv ∈ ns.store, isPref ns.ID kv.1 = true)
    (hub : ∀ kv ∈ ns.store, lexLt kv.1 ns.ub = true)
    (x v : List Byte) (hx : (kvBuildKey ns.ID x, v) ∈ ns.store) :
    (∀ k, t.rangeBounds ⟨some k, none, true⟩
        = (ns.ID ++ (k ++ [ArrayValueDelim, 0xFF]), ns.UpperBound)) ∧
    (∀ k rev, t.visits (some ⟨some k, none, true⟩) rev x
        = lexLe (k ++ [ArrayValueDelim, 0xFF]) x) ∧
    (∀ k rev, t.visits (some ⟨some k, none, true⟩) rev k = false) ∧
    (∀ k rev h r, h < 0xFF →
        t.visits (some ⟨some k, none, true⟩) rev (k ++ ArrayValueDelim :: h :: r)
          = false) ∧
    (∀ k, t.rangeBounds ⟨none, some k, false⟩
        = (ns.ID ++ [], ns.ID ++ (k ++ [ArrayValueDelim, 0xFF]))) ∧
    (∀ k rev, t.visits (some ⟨none, some k, false⟩) rev x
        = lexLt x (k ++ [ArrayValueDelim, 0xFF])) ∧
    (∀ rev, t.visits (some ⟨none, some x, false⟩) rev x = true) ∧
    (∀ k rev h r, h < 0xFF → x = k ++ ArrayValueDelim :: h :: r →
        t.visits (some ⟨none, some k, false⟩) rev x = true) ∧
    (∀ k rev, t.visits (some ⟨none, some k, true⟩) rev x = lexLt x k) ∧
    (∀ k ex, (t.rangeBounds ⟨none, some k, ex⟩).1 = t.buildFirstKey) ∧
    (∀ k ex, (t.rangeBounds ⟨some k, none, ex⟩).2 = ns.UpperBound) ∧
    (∀ rng, t.IterateOnRange rng true = (t.IterateOnRange rng false).reverse ∧
        t.visits rng true x = t.visits rng false x) := by
  subst ht
  have hxub : lexLt (kvBuildKey ns.ID x) ns.ub = true := hub _ hx
  have hvis : ∀ rng rev,
      (Tree.visits ⟨some ns, none⟩ (some rng) rev x = true) ↔
        (lexLe (Tree.rangeBounds ⟨some ns, none⟩ rng).1 (kvBuildKey ns.ID x) = true ∧
          lexLt (kvBuildKey ns.ID x) (Tree.rangeBounds ⟨some ns, none⟩ rng).2 = true) := by
    intro rng rev
    rw [visits_iff_bounds ns hpr rng rev x]
    constructor
    · rintro ⟨v', _, hlo, hhi⟩; exact ⟨hlo, hhi⟩
    · rintro ⟨hlo, hhi⟩; exact ⟨v, hx, hlo, hhi⟩
  have hbexmin : ∀ k, Tree.rangeBounds ⟨some ns, none⟩ ⟨some k, none, true⟩
      = (ns.ID ++ (k ++ [ArrayValueDelim, 0xFF]), ns.UpperBound) := by
    intro k
    simp [Tree.rangeBounds, Tree.buildStartKeyExclusive, Tree.buildLastKey,
      Tree.buildKey, kvBuildKey, List.append_assoc]
  have hbinmax : ∀ k, Tree.rangeBounds ⟨some ns, none⟩ ⟨none, some k, false⟩
      = (ns.ID ++ [], ns.ID ++ (k ++ [ArrayValueDelim, 0xFF])) := by
    intro k
    simp [Tree.rangeBounds, Tree.buildEndKeyInclusive, Tree.buildFirstKey,
      Tree.buildKey, kvBuildKey, List.append_assoc]
  have hbexmax : ∀ k, Tree.rangeBounds ⟨some ns, none⟩ ⟨none, some k, true⟩
      = (ns.ID ++ [], ns.ID ++ k) := by
    intro k
    simp [Tree.rangeBounds, Tree.buildEndKeyExclusive, Tree.buildFirstKey,
      Tree.buildKey, kvBuildKey]
  have hlowtriv : ∀ y : List Byte, lexLe (ns.ID ++ []) (kvBuildKey ns.ID y) = true := by
    intro y
    rw [kvBuildKey, List.append_nil]
    exact lexLe_self_append ns.ID y
  refine ⟨hbexmin, ?_, ?_, ?_, hbinmax, ?_, ?_, ?_, ?_, ?_, ?_, ?_⟩
  · -- (2) exclusive min k: visited iff the lower bound is ≤ x
    intro k rev
    apply bool_eq_of_iff
    rw [hvis ⟨some k, none, true⟩ rev, hbexmin k]
    constructor
    · rintro ⟨hlo, _⟩
      rw [kvBuildKey] at hlo
      rwa [lexLe_append_cancel] at hlo
    · intro hlo
      refine ⟨?_, hxub⟩
      rw [kvBuildKey, lexLe_append_cancel]
      exact hlo
  · -- (3) k itself is skipped
    intro k rev
    apply visits_false_of_lower ns hpr _ rev k
    rw [hbexmin k, kvBuildKey]
    have h := lexLe_append_cancel ns.ID (k ++ [ArrayValueDelim, 0xFF]) k
    rw [h]
    simp only [lexLe]
    rw [lexLt_self_append k ArrayValueDelim [0xFF]]
    rfl
  · -- (4) every key extending k is skipped
    intro k rev h r hh
    apply visits_false_of_lower ns hpr _ rev _
    rw [hbexmin k, kvBuildKey]
    rw [lexLe_append_cancel]
    have e1 : k ++ [ArrayValueDelim, 0xFF]
        = (k ++ [ArrayValueDelim]) ++ [(0xFF : Byte)] := by
      simp
    have e2 : k ++ ArrayValueDelim :: h :: r
        = (k ++ [ArrayValueDelim]) ++ (h :: r) := by
      simp
    rw [e1, e2, lexLe_append_cancel]
    simp only [lexLe]
    have : lexLt (h :: r) [0xFF] = true := by
      simp [lexLt, hh]
    rw [this]
    rfl
  · -- (6) inclusive max k: visited iff strictly below k ++ [D, 0xFF]
    intro k rev
    apply bool_eq_of_iff
    rw [hvis ⟨none, some k, false⟩ rev, hbinmax k]
    constructor
    · rintro ⟨_, hhi⟩
      rw [kvBuildKey] at hhi
      rwa [lexLt_append_cancel] at hhi
    · intro hhi
      refine ⟨hlowtriv x, ?_⟩
      rw [kvBuildKey, lexLt_append_cancel]
      exact hhi
  · -- (7a) the max key itself is included
    intro rev
    rw [(hvis ⟨none, some x, false⟩ rev)]
    refine ⟨hlowtriv x, ?_⟩
    rw [hbinmax x, kvBuildKey, lexLt_append_cancel]
    exact lexLt_self_append x ArrayValueDelim [0xFF]
  · -- (7b) stored keys extending the max key are included
    intro k rev h r hh hxk
    rw [(hvis ⟨none, some k, false⟩ rev)]
    refine ⟨hlowtriv x, ?_⟩
    rw [hbinmax k, kvBuildKey, lexLt_append_cancel, hxk]
    have e1 : k ++ [ArrayValueDelim, 0xFF]
        = (k ++ [ArrayValueDelim]) ++ [(0xFF : Byte)] := by
      simp
    have e2 : k ++ ArrayValueDelim :: h :: r
        = (k ++ [ArrayValueDelim]) ++ (h :: r) := by
      simp
    rw [e1, e2, lexLt_append_cancel]
    simp [lexLt, hh]
  · -- (8) exclusive max k: visited iff strictly below k
    intro k rev
    apply bool_eq_of_iff
    rw [hvis ⟨none, some k, true⟩ rev, hbexmax k]
    constructor
    · rintro ⟨_, hhi⟩
      rw [kvBuildKey] at hhi
      rwa [lexLt_append_cancel] at hhi
    · intro hhi
      refine ⟨hlowtriv x, ?_⟩
      rw [kvBuildKey, lexLt_append_cancel]
      exact hhi
  · -- (9a) unset min: iteration starts at the namespace's first key
    intro k ex
    cases ex <;> rfl
  · -- (9b) unset max: iteration ends at the namespace's UpperBound
    intro k ex
    cases ex <;> rfl
  · -- (10) reverse iteration: same bounds and same visited keys
    intro rng
    have hrevlist : Tree.IterateOnRange ⟨some ns, none⟩ rng true
        = (Tree.IterateOnRange ⟨some ns, none⟩ rng false).reverse := by
      simp [Tree.IterateOnRange, List.map_reverse]
    refine ⟨hrevlist, ?_⟩
    simp [Tree.visits, hrevlist, List.any_reverse]

/-- Witness for C1 at a concrete namespace: id `[7]`, upper bound `[8]`, one
stored entry with logical key `[3]`; exclusive-min range over `[5]`. -/
theorem iterateOnRange_range_semantics_witness :
    Tree.visits ⟨some ⟨[7], [8], [([7, 3], [0])]⟩, none⟩
        (some ⟨some [5], none, true⟩) false [3]
      = lexLe ([5] ++ [ArrayValueDelim, 0xFF]) [3] :=
  ((iterateOnRange_range_semantics ⟨[7], [8], [([7, 3], [0])]⟩ _ rfl
      (by decide) (by decide) [3] [0] (by decide)).2.1) [5] false

/-- C8: on a Tree backed by a `TransientStore`, `Get`, `Exists`, `Delete` and
`Truncate` never return normally — each panics with a
"not implemented on transient tree" message — while `Put` succeeds and
`IterateOnRange` draws from the transient store. -/
theorem transient_tree_only_put_and_iterate
    (t : Tree) (ts : TransientStore) (h : t.TransientStore = some ts)
    (key : List Byte) (d : Option (List Byte)) :
    t.Get key = .panicked "Get not implemented on transient tree" ∧
    t.Exists key = .panicked "Exists not implemented on transient tree" ∧
    t.Delete key = .panicked "Delete not implemented on transient tree" ∧
    t.Truncate = .panicked "Truncate not implemented on transient tree" ∧
    t.Put key d
      = .ok ({ t with TransientStore := some (ts.Put key (d.getD [0])) }, d.getD [0]) ∧
    t.storeEntries = ts.store := by
  refine ⟨?_, ?_, ?_, ?_, ?_, ?_⟩
  · simp [Tree.Get, h]
  · simp [Tree.Exists, h]
  · simp [Tree.Delete, h]
  · simp [Tree.Truncate, h]
  · cases d <;> simp [Tree.Put, h, Option.getD]
  · simp [Tree.storeEntries, h]

/-- Witness for C8 at a concrete transient tree. -/
theorem transient_tree_only_put_and_iterate_witness :
    Tree.Get ⟨none, some ⟨[([2], [9])]⟩⟩ [2]
      = .panicked "Get not implemented on transient tree" :=
  (transient_tree_only_put_and_iterate ⟨none, some ⟨[([2], [9])]⟩⟩ ⟨[([2], [9])]⟩
      rfl [2] none).1

/-- C9: every key handed to the `IterateOnRange` callback of a
namespace-backed tree is a stored raw key with the namespace prefix
stripped — re-attaching `ns.ID` in front of the callback key recovers an
entry of the namespace's store. -/
theorem iterateOnRange_trims_namespace_id
    (ns : Namespace) (t : Tree) (ht : t = ⟨some ns, none⟩)
    (hpr : ∀ kv ∈ ns.store, isPref ns.ID kv.1 = true)
    (rng : Option Range) (rev : Bool) (kv : List Byte × List Byte)
    (hkv : kv ∈ t.IterateOnRange rng rev) :
    (kvBuildKey ns.ID kv.1, kv.2) ∈ ns.store := by
  subst ht
  have hpre : Tree.buildKey ⟨some ns, none⟩ [] = ns.ID := by
    simp [Tree.buildKey, kvBuildKey]
  obtain ⟨r, hr⟩ : ∃ r : Range, Tree.IterateOnRange ⟨some ns, none⟩ rng rev
      = Tree.IterateOnRange ⟨some ns, none⟩ (some r) rev := by
    cases rng with
    | none => exact ⟨⟨none, none, false⟩, rfl⟩
    | some r => exact ⟨r, rfl⟩
  rw [hr] at hkv
  simp only [Tree.IterateOnRange, Tree.storeEntries, hpre] at hkv
  rw [List.mem_map] at hkv
  obtain ⟨kv0, hmem0, hf⟩ := hkv
  have hmem1 : kv0 ∈ ns.store.filter
      (fun kv => lexLe (Tree.rangeBounds ⟨some ns, none⟩ r).1 kv.1 &&
        lexLt kv.1 (Tree.rangeBounds ⟨some ns, none⟩ r).2) := by
    by_cases hrev : rev
    · simpa [hrev] using hmem0
    · simpa [hrev] using hmem0
  rw [List.mem_filter] at hmem1
  have hp := hpr kv0 hmem1.1
  have hsplit : ns.ID ++ kv0.1.drop ns.ID.length = kv0.1 := isPref_eq_append_drop hp
  have hkey : trimPref ns.ID kv0.1 = kv0.1.drop ns.ID.length := by
    simp [trimPref, hp]
  have h1 : kv.1 = kv0.1.drop ns.ID.length := by
    rw [← hf, hkey]
  have h2 : kv.2 = kv0.2 := by rw [← hf]
  rw [kvBuildKey, h1, h2, hsplit]
  exact hmem1.1

/-- Witness for C9 at a concrete namespace tree and full-range iteration. -/
theorem iterateOnRange_trims_namespace_id_witness :
    (kvBuildKey [7] [3], [0]) ∈ ([([7, 3], [0])] :
        List (List Byte × List Byte)) :=
  iterateOnRange_trims_namespace_id ⟨[7], [8], [([7, 3], [0])]⟩ _ rfl
    (by decide) none false ([3], [0]) (by decide)

/-! ## Integer key encoding and partial composite keys -/

/-- Fixed-width big-endian byte representation of a natural number. -/
def beBytes : Nat → Nat → List Byte
  | 0, _ => []
  | w + 1, n => beBytes w (n / 256) ++ [n % 256]

theorem beBytes_length (w n : Nat) : (beBytes w n).length = w := by
  induction w generalizing n with
  | zero => rfl
  | succ w ih => simp [beBytes, ih]

/-- Big-endian fixed-width encoding preserves the order of the encoded
numbers within the width's capacity. -/
theorem beBytes_lt {w m n : Nat} (hmn : m < n) (hn : n < 256 ^ w) :
    lexLt (beBytes w m) (beBytes w n) = true := by
  induction w generalizing m n with
  | zero =>
    simp only [pow_zero, Nat.lt_one_iff] at hn
    omega
  | succ w ih =>
    have hdle : m / 256 ≤ n / 256 := Nat.div_le_div_right (Nat.le_of_lt hmn)
    have hdn : n / 256 < 256 ^ w := by
      apply Nat.div_lt_of_lt_mul
      calc n < 256 ^ (w + 1) := hn
      _ = 256 * 256 ^ w := by ring
    rcases Nat.lt_or_ge (m / 256) (n / 256) with hd | hd
    · have hpre := ih hd hdn
      simpa [beBytes] using
        lexLt_append_of_lexLt_samelen
          (by rw [beBytes_length, beBytes_length]) hpre [m % 256] [n % 256]
    · have hdeq : m / 256 = n / 256 := Nat.le_antisymm hdle hd
      have hmod : m % 256 < n % 256 := by
        have hm := Nat.div_add_mod m 256
        have hn' := Nat.div_add_mod n 256
        omega
      have : lexLt (beBytes w (m / 256) ++ [m % 256])
          (beBytes w (m / 256) ++ [n % 256]) = true := by
        rw [lexLt_append_cancel]
        simp [lexLt, hmod]
      simpa [beBytes, hdeq] using this

/-- Modelled from the spec: the shared 9-byte order-preserving encoding of a
signed 64-bit integer — a type-tag byte followed by the big-endian bytes of
the value offset by `2^63` (the "sign bit flipped" trick).  The
`types/encoding` package is not under src/; the tag's exact value is
immaterial, only that it is a fixed byte below `0xFF`. -/
def IntegerTag : Byte := 0x10

def encInt (n : Int) : List Byte := IntegerTag :: beBytes 8 (n + 2 ^ 63).toNat

theorem encInt_length (n : Int) : (encInt n).length = 9 := by
  simp [encInt, beBytes_length]

/-- The 9-byte integer encoding preserves the signed order on the i64 range. -/
theorem encInt_lt {a b : Int} (hab : a < b) (ha : -(2 ^ 63) ≤ a) (hb : b < 2 ^ 63) :
    lexLt (encInt a) (encInt b) = true := by
  have h1 : (a + 2 ^ 63).toNat < (b + 2 ^ 63).toNat := by omega
  have hpow : (256 : Nat) ^ 8 = 2 ^ 64 := by norm_num
  have h2 : (b + 2 ^ 63).toNat < 256 ^ 8 := by
    rw [hpow]
    omega
  exact lexLt_cons_same IntegerTag (beBytes_lt h1 h2)

/-- Modelled from the spec: the byte slice IndexScan derives for a partial
composite key shorter than the index arity — the missing trailing columns are
open at both ends, yielding `[P ‖ k ‖ D, P ‖ k ‖ D ‖ 0xFF)`.  The
`stream.Range` → byte-bounds conversion for index scans is not under src/. -/
def partialKeySlice (P k : List Byte) : List Byte × List Byte :=
  (P ++ (k ++ [ArrayValueDelim]), P ++ (k ++ [ArrayValueDelim, 0xFF]))

/-- A raw stored key lies inside a half-open byte slice. -/
def sliceVisits (slice : List Byte × List Byte) (raw : List Byte) : Bool :=
  lexLe slice.1 raw && lexLt raw slice.2

/-- Any continuation of an encoded integer starts with the type tag, hence
stays strictly below a raw `0xFF` byte. -/
theorem lexLt_cons_head_lt {a b : Byte} (h : a < b) (s t : List Byte) :
    lexLt (a :: s) (b :: t) = true := by
  simp [lexLt, h]

theorem lexLt_encInt_append_ltFF (b : Int) (tail : List Byte) :
    lexLt (encInt b ++ tail) [0xFF] = true := by
  simp only [encInt, List.cons_append]
  exact lexLt_cons_head_lt (by norm_num [IntegerTag]) _ _

/-- C2: for a range shorter than the arity of the composite index it targets,
the missing trailing columns are open at both ends.  The byte slice produced
for the partial key `[1]` is `[P‖enc(1)‖D, P‖enc(1)‖D‖0xFF)`; that slice
admits an index entry `P‖enc(a)‖D‖enc(b)‖tail` exactly when `a = 1`, for
every i64 value of `b` (including `MAX_I64 = 2^63 - 1`); and an exclusive
min of `[1]` excludes every entry with `a = 1`. -/
theorem indexScan_partial_key_widens (P : List Byte) :
    partialKeySlice P (encInt 1)
      = (P ++ (encInt 1 ++ [ArrayValueDelim]),
         P ++ (encInt 1 ++ [ArrayValueDelim, 0xFF])) ∧
    (∀ a b : Int, ∀ tail : List Byte, -(2 ^ 63) ≤ a → a < 2 ^ 63 →
        sliceVisits (partialKeySlice P (encInt 1))
            (P ++ (encInt a ++ ArrayValueDelim :: (encInt b ++ tail)))
          = (a == 1)) ∧
    (∀ tail : List Byte,
        sliceVisits (partialKeySlice P (encInt 1))
            (P ++ (encInt 1 ++ ArrayValueDelim :: (encInt (2 ^ 63 - 1) ++ tail)))
          = true) ∧
    (∀ ns : Namespace, (∀ kv ∈ ns.store, isPref ns.ID kv.1 = true) →
        ∀ (b : Int) (tail : List Byte) (rev : Bool),
          Tree.visits ⟨some ns, none⟩ (some ⟨some (encInt 1), none, true⟩) rev
              (encInt 1 ++ ArrayValueDelim :: (encInt b ++ tail)) = false) := by
  have hsplit : ∀ (k : List Byte) (b : Int) (tail : List Byte),
      k ++ ArrayValueDelim :: (encInt b ++ tail)
        = (k ++ [ArrayValueDelim]) ++ (encInt b ++ tail) := by
    intro k b tail
    simp
  have hFF : ∀ (k : List Byte),
      k ++ [ArrayValueDelim, 0xFF] = (k ++ [ArrayValueDelim]) ++ [(0xFF : Byte)] := by
    intro k
    simp
  have hin : ∀ (b : Int) (tail : List Byte),
      sliceVisits (partialKeySlice P (encInt 1))
          (P ++ (encInt 1 ++ ArrayValueDelim :: (encInt b ++ tail))) = true := by
    intro b tail
    have hlo : lexLe (P ++ (encInt 1 ++ [ArrayValueDelim]))
        (P ++ (encInt 1 ++ ArrayValueDelim :: (encInt b ++ tail))) = true := by
      rw [lexLe_append_cancel, hsplit]
      exact lexLe_self_append _ _
    have hhi : lexLt (P ++ (encInt 1 ++ ArrayValueDelim :: (encInt b ++ tail)))
        (P ++ (encInt 1 ++ [ArrayValueDelim, 0xFF])) = true := by
      rw [lexLt_append_cancel, hsplit, hFF, lexLt_append_cancel]
      exact lexLt_encInt_append_ltFF b tail
    simp [sliceVisits, partialKeySlice, hlo, hhi]
  have hmain : ∀ a b : Int, ∀ tail : List Byte, -(2 ^ 63) ≤ a → a < 2 ^ 63 →
      sliceVisits (partialKeySlice P (encInt 1))
          (P ++ (encInt a ++ ArrayValueDelim :: (encInt b ++ tail)))
        = (a == 1) := by
    intro a b tail ha ha'
    rcases lt_trichotomy a 1 with hlt | heq | hgt
    · have hne : (a == 1) = false := by
        simp [Int.ne_of_lt hlt]
      rw [hne]
      have henc : lexLt (encInt a) (encInt 1) = true :=
        encInt_lt hlt ha (by norm_num)
      have hfail : lexLt (encInt a ++ (ArrayValueDelim :: (encInt b ++ tail)))
          (encInt 1 ++ [ArrayValueDelim]) = true :=
        lexLt_append_of_lexLt_samelen
          (by rw [encInt_length, encInt_length]) henc _ _
      have hlo : lexLe (P ++ (encInt 1 ++ [ArrayValueDelim]))
          (P ++ (encInt a ++ ArrayValueDelim :: (encInt b ++ tail))) = false := by
        rw [lexLe_append_cancel]
        simp only [lexLe]
        rw [hfail]
        rfl
      simp [sliceVisits, partialKeySlice, hlo]
    · subst heq
      rw [hin b tail]
      rfl
    · have hne : (a == 1) = false := by
        simp [Int.ne_of_gt hgt]
      rw [hne]
      have henc : lexLt (encInt 1) (encInt a) = true :=
        encInt_lt hgt (by norm_num) ha'
      have hgrow : lexLt (encInt 1 ++ [ArrayValueDelim, 0xFF])
          (encInt a ++ (ArrayValueDelim :: (encInt b ++ tail))) = true :=
        lexLt_append_of_lexLt_samelen
          (by rw [encInt_length, encInt_length]) henc _ _
      have hhi : lexLt (P ++ (encInt a ++ ArrayValueDelim :: (encInt b ++ tail)))
          (P ++ (encInt 1 ++ [ArrayValueDelim, 0xFF])) = false := by
        rw [lexLt_append_cancel]
        exact lexLt_asymm hgrow
      simp [sliceVisits, partialKeySlice, hhi]
  refine ⟨rfl, hmain, fun tail => hin (2 ^ 63 - 1) tail, ?_⟩
  · intro ns hpr b tail rev
    apply visits_false_of_lower ns hpr _ rev _
    have hbd : (Tree.rangeBounds ⟨some ns, none⟩ ⟨some (encInt 1), none, true⟩).1
        = ns.ID ++ (encInt 1 ++ [ArrayValueDelim, 0xFF]) := by
      simp [Tree.rangeBounds, Tree.buildStartKeyExclusive, Tree.buildKey,
        kvBuildKey, List.append_assoc]
    rw [hbd, kvBuildKey, lexLe_append_cancel, hFF, hsplit, lexLe_append_cancel]
    simp only [lexLe]
    rw [lexLt_encInt_append_ltFF b tail]
    rfl

/-- Witness for C2: the slice for partial key `[1]` rejects the entry with
first element `2` (and the equality with `a == 1` is discharged at `a = 2`,
`b = 5`, prefix `[9]`). -/
theorem indexScan_partial_key_widens_witness :
    sliceVisits (partialKeySlice [9] (encInt 1))
        ([9] ++ (encInt 2 ++ ArrayValueDelim :: (encInt 5 ++ [])))
      = ((2 : Int) == 1) :=
  (indexScan_partial_key_widens [9]).2.1 2 5 [] (by norm_num) (by norm_num)

/-! ## Streams of operators

The statement compilers build a linear stream of operators with
`stream.New(src).Pipe(op)...`; a stream is modelled as the list of its
operators in pipe order.  Expressions are opaque to the compilation layer. -/

/-- An opaque SQL expression (the expression evaluator is external). -/
structure Expr where
  idx : Nat
deriving DecidableEq, Repr

/-- One step of an `object.Path`: a field name or an array index. -/
inductive PathFragment where
  | fieldName (name : String)
  | arrayIndex (idx : Nat)
deriving DecidableEq, Repr

/-- `object.Path`, compared structurally by `Path.IsEqual`. -/
abbrev Path := List PathFragment

/-- Split a character list on the dot separator. -/
def splitOnDot : List Char -> List (List Char)
  | [] => [[]]
  | c :: rest =>
    if c = '.' then [] :: splitOnDot rest
    else
      match splitOnDot rest with
      | [] => [[c]]
      | g :: gs => (c :: g) :: gs

/-- Modelled from the spec: `object.NewPath` parses a dotted field path (the
`object` package is not under src/); array-index steps do not occur in the
paths the UPDATE statement builds from plain column names. -/
def NewPath (s : String) : Path :=
  (splitOnDot s.data).map (fun cs => PathFragment.fieldName (String.mk cs))

/-- The stream operators produced by the statement compilers. -/
inductive Op where
  | seqScan (table : String)
  | emit (exprs : List Expr)
  | filter (e : Expr)
  | project (exprs : List Expr)
  | pathsRename (names : List String)
  | pathSet (p : Path) (e : Expr)
  | pathUnset (name : String)
  | tempTreeSort (e : Expr)
  | skip (n : Nat)
  | take (n : Nat)
  | tableValidate (table : String)
  | tableInsert (table : String)
  | tableReplace (table : String)
  | tableDelete (table : String)
  | indexDelete (name : String)
  | indexValidate (name : String)
  | indexInsert (name : String)
  | onConflict (alt : Option (List Op))
  | discard

/-! ## Catalog metadata consumed by the statement compilers -/

structure PrimaryKey where
  Paths : List Path
deriving DecidableEq, Repr

structure TableInfo where
  PrimaryKey : Option Genji.PrimaryKey
deriving DecidableEq, Repr

/-- `TableInfo.GetPrimaryKey`. -/
def TableInfo.GetPrimaryKey (ti : TableInfo) : Option Genji.PrimaryKey :=
  ti.PrimaryKey

structure IndexInfo where
  Unique : Bool
deriving DecidableEq, Repr

/-- The slice of the catalog the UPDATE compiler consults. -/
structure Catalog where
  GetTableInfo : String → Option TableInfo
  ListIndexes : String → List String
  GetIndexInfo : String → Option IndexInfo

/-! ## UPDATE (`UpdateStmt.Prepare`) -/

structure UpdateSetPair where
  Path : Genji.Path
  E : Expr

structure UpdateStmt where
  TableName : String
  SetPairs : Option (List UpdateSetPair)
  UnsetFields : Option (List String)
  WhereExpr : Option Expr

/-- The primary-key check performed inside the SET/UNSET loops: whether any
primary-key path `IsEqual` to `p` (false when there is no primary key). -/
def pkTouches (pk : Option PrimaryKey) (p : Path) : Bool :=
  match pk with
  | none => false
  | some k => k.Paths.any (fun q => q == p)

/-- The `for _, pair := range stmt.SetPairs` loop: pipes one `path.Set` per
pair and latches `pkModified` when a pair touches the primary key. -/
def setPairsLoop (pk : Option PrimaryKey) :
    List UpdateSetPair → Bool → List Op × Bool
  | [], m => ([], m)
  | pair :: rest, m =>
    let m' := if !m then pkTouches pk pair.Path else m
    let r := setPairsLoop pk rest m'
    (Op.pathSet pair.Path pair.E :: r.1, r.2)

/-- The `for _, name := range stmt.UnsetFields` loop: errors on a field whose
parsed path participates in the primary key, otherwise pipes `path.Unset`. -/
def unsetFieldsLoop (pk : Option PrimaryKey) :
    List String → Except String (List Op)
  | [] => Except.ok []
  | name :: rest =>
    if pkTouches pk (NewPath name) then
      Except.error "cannot unset primary key path"
    else
      match unsetFieldsLoop pk rest with
      | Except.ok ops => Except.ok (Op.pathUnset name :: ops)
      | Except.error e => Except.error e

/-- The final per-index loop: `index.Validate` for unique indexes, then
`index.Insert`, erroring if the catalog has no info for an index. -/
def indexPipeLoop (c : Catalog) : List String → Except String (List Op)
  | [] => Except.ok []
  | name :: rest =>
    match c.GetIndexInfo name with
    | none => Except.error "index not found"
    | some info =>
      match indexPipeLoop c rest with
      | Except.ok ops =>
        Except.ok ((if info.Unique then [Op.indexValidate name] else []) ++
          Op.indexInsert name :: ops)
      | Except.error e => Except.error e

/-- `UpdateStmt.Prepare`: the stream the UPDATE statement compiles to. -/
def UpdateStmt.Prepare (c : Catalog) (stmt : UpdateStmt) :
    Except String (List Op) :=
  match c.GetTableInfo stmt.TableName with
  | none => Except.error "table not found"
  | some ti =>
    let pk := ti.GetPrimaryKey
    let s := [Op.seqScan stmt.TableName]
    let s := match stmt.WhereExpr with
      | some e => s ++ [Op.filter e]
      | none => s
    let step : Except String (List Op × Bool) :=
      match stmt.SetPairs with
      | some pairs =>
        let r := setPairsLoop pk pairs false
        Except.ok (s ++ r.1, r.2)
      | none =>
        match stmt.UnsetFields with
        | some fields =>
          match unsetFieldsLoop pk fields with
          | Except.ok ops => Except.ok (s ++ ops, false)
          | Except.error e => Except.error e
        | none => Except.ok (s, false)
    match step with
    | Except.error e => Except.error e
    | Except.ok sm =>
      let s := sm.1 ++ [Op.tableValidate stmt.TableName]
      let indexNames := c.ListIndexes stmt.TableName
      let s := s ++ indexNames.map Op.indexDelete
      let s := if sm.2 then
          s ++ [Op.tableDelete stmt.TableName, Op.tableInsert stmt.TableName]
        else
          s ++ [Op.tableReplace stmt.TableName]
      match indexPipeLoop c indexNames with
      | Except.error e => Except.error e
      | Except.ok ops => Except.ok (s ++ ops ++ [Op.discard])

/-- The per-index tail of the UPDATE stream as the claim states it:
`IndexValidate` for unique indexes only, then `IndexInsert`, in catalog
order. -/
def indexPipeOps (u : String → Bool) : List String → List Op
  | [] => []
  | name :: rest =>
    (if u name then [Op.indexValidate name] else []) ++
      Op.indexInsert name :: indexPipeOps u rest

theorem setPairsLoop_spec (pk : Option PrimaryKey) (pairs : List UpdateSetPair)
    (m : Bool) :
    setPairsLoop pk pairs m
      = (pairs.map (fun pair => Op.pathSet pair.Path pair.E),
         m || pairs.any (fun pair => pkTouches pk pair.Path)) := by
  induction pairs generalizing m with
  | nil => simp [setPairsLoop]
  | cons pair rest ih =>
    cases m <;> simp [setPairsLoop, ih, Bool.or_assoc]

theorem unsetFieldsLoop_ok (pk : Option PrimaryKey) (fields : List String)
    (h : ∀ f ∈ fields, pkTouches pk (NewPath f) = false) :
    unsetFieldsLoop pk fields = Except.ok (fields.map Op.pathUnset) := by
  induction fields with
  | nil => rfl
  | cons f rest ih =>
    have hf := h f (by simp)
    have hr := ih (fun g hg => h g (List.mem_cons_of_mem _ hg))
    simp [unsetFieldsLoop, hf, hr]

theorem unsetFieldsLoop_error (pk : Option PrimaryKey) (fields : List String)
    (h : ∃ f ∈ fields, pkTouches pk (NewPath f) = true) :
    unsetFieldsLoop pk fields = Except.error "cannot unset primary key path" := by
  induction fields with
  | nil =>
    obtain ⟨f, hf, _⟩ := h
    simp at hf
  | cons g rest ih =>
    by_cases hg : pkTouches pk (NewPath g) = true
    · simp [unsetFieldsLoop, hg]
    · have hg' : pkTouches pk (NewPath g) = false := by
        simpa using hg
      obtain ⟨f, hf, hft⟩ := h
      rcases List.mem_cons.mp hf with rfl | hfr
      · rw [hft] at hg'
        cases hg'
      · have hrec := ih ⟨f, hfr, hft⟩
        simp [unsetFieldsLoop, hg', hrec]

theorem indexPipeLoop_ok (c : Catalog) (names : List String) (u : String → Bool)
    (h : ∀ n ∈ names, c.GetIndexInfo n = some ⟨u n⟩) :
    indexPipeLoop c names = Except.ok (indexPipeOps u names) := by
  induction names with
  | nil => rfl
  | cons n rest ih =>
    have hn := h n (by simp)
    have hr := ih (fun g hg => h g (List.mem_cons_of_mem _ hg))
    simp [indexPipeLoop, hn, hr, indexPipeOps]

/-- C3: a prepared UPDATE stream is exactly `SeqScan`, `Filter` when a WHERE
clause is present, one `PathSet` per SET pair (or one `PathUnset` per UNSET
field), `TableValidate`, one `IndexDelete` per index of the table, then —
iff some SET pair's path equals one of the primary-key paths —
`TableDelete` followed by `TableInsert`, otherwise `TableReplace`, then for
each index in catalog order `IndexValidate` (only when unique) followed by
`IndexInsert`, and finally `Discard`. -/
theorem update_prepare_stream (c : Catalog) (stmt : UpdateStmt) (ti : TableInfo)
    (hti : c.GetTableInfo stmt.TableName = some ti)
    (u : String → Bool)
    (hu : ∀ n ∈ c.ListIndexes stmt.TableName, c.GetIndexInfo n = some ⟨u n⟩) :
    (∀ pairs, stmt.SetPairs = some pairs →
      UpdateStmt.Prepare c stmt = Except.ok (
        [Op.seqScan stmt.TableName]
        ++ (match stmt.WhereExpr with
            | some e => [Op.filter e]
            | none => [])
        ++ pairs.map (fun pair => Op.pathSet pair.Path pair.E)
        ++ [Op.tableValidate stmt.TableName]
        ++ (c.ListIndexes stmt.TableName).map Op.indexDelete
        ++ (if pairs.any (fun pair => pkTouches ti.GetPrimaryKey pair.Path) then
              [Op.tableDelete stmt.TableName, Op.tableInsert stmt.TableName]
            else
              [Op.tableReplace stmt.TableName])
        ++ indexPipeOps u (c.ListIndexes stmt.TableName)
        ++ [Op.discard])) ∧
    (∀ fields, stmt.SetPairs = none → stmt.UnsetFields = some fields →
      (∀ f ∈ fields, pkTouches ti.GetPrimaryKey (NewPath f) = false) →
      UpdateStmt.Prepare c stmt = Except.ok (
        [Op.seqScan stmt.TableName]
        ++ (match stmt.WhereExpr with
            | some e => [Op.filter e]
            | none => [])
        ++ fields.map Op.pathUnset
        ++ [Op.tableValidate stmt.TableName]
        ++ (c.ListIndexes stmt.TableName).map Op.indexDelete
        ++ [Op.tableReplace stmt.TableName]
        ++ indexPipeOps u (c.ListIndexes stmt.TableName)
        ++ [Op.discard])) := by
  have hloop := indexPipeLoop_ok c (c.ListIndexes stmt.TableName) u hu
  constructor
  · intro pairs hset
    cases hW : stmt.WhereExpr with
    | none =>
      simp only [UpdateStmt.Prepare, hti, hset, hW, setPairsLoop_spec, hloop,
        TableInfo.GetPrimaryKey, Bool.false_or]
      split <;> simp_all
    | some e =>
      simp only [UpdateStmt.Prepare, hti, hset, hW, setPairsLoop_spec, hloop,
        TableInfo.GetPrimaryKey, Bool.false_or]
      split <;> simp_all
  · intro fields hset huf hnone
    have hok : unsetFieldsLoop ti.PrimaryKey fields
        = Except.ok (fields.map Op.pathUnset) :=
      unsetFieldsLoop_ok _ _
        (fun f hf => by simpa [TableInfo.GetPrimaryKey] using hnone f hf)
    cases hW : stmt.WhereExpr with
    | none =>
      simp [UpdateStmt.Prepare, hti, hset, huf, hW, hok, hloop,
        TableInfo.GetPrimaryKey]
    | some e =>
      simp [UpdateStmt.Prepare, hti, hset, huf, hW, hok, hloop,
        TableInfo.GetPrimaryKey]

/-- Witness for C3: UPDATE with a WHERE clause and one SET pair touching the
single-column primary key, over a catalog with a unique and a non-unique
index. -/
theorem update_prepare_stream_witness :
    UpdateStmt.Prepare
        ⟨fun n => if n = "test" then
            some ⟨some ⟨[[PathFragment.fieldName "a"]]⟩⟩ else none,
          fun _ => ["idx1", "idx2"],
          fun n => if n = "idx1" then some ⟨true⟩ else some ⟨false⟩⟩
        ⟨"test", some [⟨[PathFragment.fieldName "a"], ⟨0⟩⟩], none, some ⟨1⟩⟩
      = Except.ok
          [Op.seqScan "test", Op.filter ⟨1⟩,
           Op.pathSet [PathFragment.fieldName "a"] ⟨0⟩,
           Op.tableValidate "test",
           Op.indexDelete "idx1", Op.indexDelete "idx2",
           Op.tableDelete "test", Op.tableInsert "test",
           Op.indexValidate "idx1", Op.indexInsert "idx1",
           Op.indexInsert "idx2", Op.discard] := by
  exact (update_prepare_stream
      ⟨fun n => if n = "test" then
          some ⟨some ⟨[[PathFragment.fieldName "a"]]⟩⟩ else none,
        fun _ => ["idx1", "idx2"],
        fun n => if n = "idx1" then some ⟨true⟩ else some ⟨false⟩⟩
      ⟨"test", some [⟨[PathFragment.fieldName "a"], ⟨0⟩⟩], none, some ⟨1⟩⟩
      ⟨some ⟨[[PathFragment.fieldName "a"]]⟩⟩ rfl
      (fun n => n == "idx1") (by decide)).1 _ rfl

/-- C6: preparing `UPDATE t UNSET p` fails with the compile error
"cannot unset primary key path" whenever `p` equals any path of the
table's primary key (a single column of a composite key included); no
stream is built in that case. -/
theorem update_unset_pk_error (c : Catalog) (stmt : UpdateStmt) (ti : TableInfo)
    (hti : c.GetTableInfo stmt.TableName = some ti)
    (fields : List String) (hset : stmt.SetPairs = none)
    (huf : stmt.UnsetFields = some fields)
    (f : String) (hf : f ∈ fields)
    (hpk : pkTouches ti.GetPrimaryKey (NewPath f) = true) :
    UpdateStmt.Prepare c stmt = Except.error "cannot unset primary key path" := by
  have herr : unsetFieldsLoop ti.PrimaryKey fields
      = Except.error "cannot unset primary key path" :=
    unsetFieldsLoop_error _ _
      ⟨f, hf, by simpa [TableInfo.GetPrimaryKey] using hpk⟩
  cases hW : stmt.WhereExpr with
  | none =>
    simp [UpdateStmt.Prepare, hti, hset, huf, hW, herr, TableInfo.GetPrimaryKey]
  | some e =>
    simp [UpdateStmt.Prepare, hti, hset, huf, hW, herr, TableInfo.GetPrimaryKey]

/-- Witness for C6: `UNSET b` where `b` is one column of the composite
primary key `(a, b)`. -/
theorem update_unset_pk_error_witness :
    UpdateStmt.Prepare
        ⟨fun n => if n = "test" then
            some ⟨some ⟨[[PathFragment.fieldName "a"],
              [PathFragment.fieldName "b"]]⟩⟩ else none,
          fun _ => [], fun _ => none⟩
        ⟨"test", none, some ["b"], none⟩
      = Except.error "cannot unset primary key path" := by
  exact update_unset_pk_error _ _
    ⟨some ⟨[[PathFragment.fieldName "a"], [PathFragment.fieldName "b"]]⟩⟩ rfl
    ["b"] rfl rfl "b" (by decide) (by decide)

/-! ## DROP TABLE and DROP SEQUENCE (`drop.go`)

The `CatalogWriter` is external to the statement code; dropping a table or a
sequence is modelled as removing its catalog entry. -/

structure SequenceInfo where
  Name : String
  OwnerTableName : String
deriving DecidableEq, Repr

/-- The table metadata `DropTableStmt.Run` consults (`tb.Info`). -/
structure DropTableInfo where
  PrimaryKey : Option Genji.PrimaryKey
  RowidSequenceName : String
deriving DecidableEq, Repr

/-- The slice of the catalog the DROP statements read and write. -/
structure DropCatalog where
  tables : List (String × DropTableInfo)
  sequences : List SequenceInfo
deriving DecidableEq, Repr

def DropCatalog.GetTable (c : DropCatalog) (name : String) :
    Option DropTableInfo :=
  (c.tables.find? (fun kv => kv.1 == name)).map (fun kv => kv.2)

def DropCatalog.GetSequence (c : DropCatalog) (name : String) :
    Option SequenceInfo :=
  c.sequences.find? (fun s => s.Name == name)

def DropCatalog.DropTable (c : DropCatalog) (name : String) : DropCatalog :=
  { c with tables := c.tables.filter (fun kv => !(kv.1 == name)) }

def DropCatalog.DropSequence (c : DropCatalog) (name : String) : DropCatalog :=
  { c with sequences := c.sequences.filter (fun s => !(s.Name == name)) }

/-- The errors the DROP statements surface. -/
inductive StmtError where
  | missingName (msg : String)
  | notFound
  | ownedSequence (seq tbl : String)
deriving DecidableEq, Repr

structure DropSequenceStmt where
  SequenceName : String
  IfExists : Bool

/-- `DropSequenceStmt.Run`: refuses a missing name; swallows NotFound under
IF EXISTS; refuses to drop a sequence owned by a table constraint even under
IF EXISTS; otherwise drops the sequence. -/
def DropSequenceStmt.Run (c : DropCatalog) (stmt : DropSequenceStmt) :
    Except StmtError DropCatalog :=
  if stmt.SequenceName = "" then
    Except.error (.missingName "missing index name")
  else
    match c.GetSequence stmt.SequenceName with
    | none =>
      if stmt.IfExists then Except.ok c else Except.error .notFound
    | some seq =>
      if seq.OwnerTableName ≠ "" then
        Except.error (.ownedSequence seq.Name seq.OwnerTableName)
      else
        Except.ok (c.DropSequence stmt.SequenceName)

structure DropTableStmt where
  TableName : String
  IfExists : Bool

/-- `DropTableStmt.Run`: drops the table; when the table has no primary key,
additionally drops its rowid sequence. -/
def DropTableStmt.Run (c : DropCatalog) (stmt : DropTableStmt) :
    Except StmtError DropCatalog :=
  if stmt.TableName = "" then
    Except.error (.missingName "missing table name")
  else
    match c.GetTable stmt.TableName with
    | none =>
      if stmt.IfExists then Except.ok c else Except.error .notFound
    | some tb =>
      let c' := c.DropTable stmt.TableName
      if tb.PrimaryKey = none then
        Except.ok (c'.DropSequence tb.RowidSequenceName)
      else
        Except.ok c'

/-- C7: `DropSequenceStmt.Run` errors whenever the sequence exists and is
owned by a table constraint, IF EXISTS notwithstanding; an existing unowned
sequence is dropped successfully; a missing sequence yields NotFound unless
IF EXISTS is set, in which case Run succeeds without changing anything. -/
theorem drop_sequence_semantics (c : DropCatalog) (stmt : DropSequenceStmt)
    (hname : stmt.SequenceName ≠ "") :
    (∀ seq, c.GetSequence stmt.SequenceName = some seq →
        seq.OwnerTableName ≠ "" →
        DropSequenceStmt.Run c stmt
          = Except.error (.ownedSequence seq.Name seq.OwnerTableName)) ∧
    (∀ seq, c.GetSequence stmt.SequenceName = some seq →
        seq.OwnerTableName = "" →
        DropSequenceStmt.Run c stmt
          = Except.ok (c.DropSequence stmt.SequenceName)) ∧
    (c.GetSequence stmt.SequenceName = none → stmt.IfExists = false →
        DropSequenceStmt.Run c stmt = Except.error .notFound) ∧
    (c.GetSequence stmt.SequenceName = none → stmt.IfExists = true →
        DropSequenceStmt.Run c stmt = Except.ok c) := by
  refine ⟨?_, ?_, ?_, ?_⟩
  · intro seq hseq howner
    simp [DropSequenceStmt.Run, hname, hseq, howner]
  · intro seq hseq howner
    simp [DropSequenceStmt.Run, hname, hseq, howner]
  · intro hseq hif
    simp [DropSequenceStmt.Run, hname, hseq, hif]
  · intro hseq hif
    simp [DropSequenceStmt.Run, hname, hseq, hif]

/-- Witness for C7: a sequence owned by a table constraint is refused even
with IF EXISTS. -/
theorem drop_sequence_semantics_witness :
    DropSequenceStmt.Run ⟨[], [⟨"seq1", "tbl"⟩]⟩ ⟨"seq1", true⟩
      = Except.error (.ownedSequence "seq1" "tbl") :=
  (drop_sequence_semantics ⟨[], [⟨"seq1", "tbl"⟩]⟩ ⟨"seq1", true⟩
      (by decide)).1 ⟨"seq1", "tbl"⟩ rfl (by decide)

/-- C10: a successful `DROP TABLE` of a table without a primary key also
drops the table's rowid sequence; when the table has a primary key, no
sequence is dropped and the rest of the catalog (the other tables and every
sequence) is left unchanged. -/
theorem drop_table_rowid_sequence (c : DropCatalog) (stmt : DropTableStmt)
    (hname : stmt.TableName ≠ "") (tb : DropTableInfo)
    (htb : c.GetTable stmt.TableName = some tb) :
    (tb.PrimaryKey = none →
      DropTableStmt.Run c stmt
        = Except.ok
            ((c.DropTable stmt.TableName).DropSequence tb.RowidSequenceName)) ∧
    (∀ pkk, tb.PrimaryKey = some pkk →
      DropTableStmt.Run c stmt = Except.ok (c.DropTable stmt.TableName) ∧
      (c.DropTable stmt.TableName).sequences = c.sequences ∧
      (c.DropTable stmt.TableName).tables
        = c.tables.filter (fun kv => !(kv.1 == stmt.TableName))) := by
  constructor
  · intro hpk
    simp [DropTableStmt.Run, hname, htb, hpk]
  · intro pkk hpk
    refine ⟨?_, rfl, rfl⟩
    simp [DropTableStmt.Run, hname, htb, hpk]

/-- Witness for C10: dropping a primary-key-less table removes its rowid
sequence from the catalog. -/
theorem drop_table_rowid_sequence_witness :
    DropTableStmt.Run ⟨[("t", ⟨none, "t_seq"⟩)], [⟨"t_seq", ""⟩]⟩ ⟨"t", false⟩
      = Except.ok
          ((DropCatalog.DropTable ⟨[("t", ⟨none, "t_seq"⟩)], [⟨"t_seq", ""⟩]⟩
              "t").DropSequence "t_seq") :=
  (drop_table_rowid_sequence ⟨[("t", ⟨none, "t_seq"⟩)], [⟨"t_seq", ""⟩]⟩
      ⟨"t", false⟩ (by decide) ⟨none, "t_seq"⟩ rfl).1 rfl

/-! ## DELETE and INSERT compilation

The DELETE and INSERT compilers themselves are not under src/ — only their
parser tests are — so they are modelled from the spec (§4.4) and checked
against the expected streams of those tests. -/

structure DeleteAST where
  tableName : String
  whereExpr : Option Expr
  orderBy : Option Expr
  offset : Option Nat
  limit : Option Nat

/-- Modelled from the spec: the DELETE statement compiles to
`SeqScan(T) → Filter? → TempTreeSort? → Skip? → Take? → TableDelete(T)`
(the compiler is not under src/, only its parser test `TestParserDelete`). -/
def compileDelete (d : DeleteAST) : List Op :=
  [Op.seqScan d.tableName]
  ++ (match d.whereExpr with
      | some e => [Op.filter e]
      | none => [])
  ++ (match d.orderBy with
      | some e => [Op.tempTreeSort e]
      | none => [])
  ++ (match d.offset with
      | some n => [Op.skip n]
      | none => [])
  ++ (match d.limit with
      | some n => [Op.take n]
      | none => [])
  ++ [Op.tableDelete d.tableName]

/-- C5: every DELETE compiles to exactly `SeqScan`, then `Filter` only with a
WHERE clause, `TempTreeSort` only with ORDER BY, `Skip` only with OFFSET,
`Take` only with LIMIT, then `TableDelete` — no other operators, sort before
skip before take.  The six expected streams of `TestParserDelete` are
reproduced verbatim. -/
theorem delete_compiles_to_exact_stream :
    (∀ d : DeleteAST, compileDelete d
      = [Op.seqScan d.tableName]
        ++ (match d.whereExpr with
            | some e => [Op.filter e]
            | none => [])
        ++ (match d.orderBy with
            | some e => [Op.tempTreeSort e]
            | none => [])
        ++ (match d.offset with
            | some n => [Op.skip n]
            | none => [])
        ++ (match d.limit with
            | some n => [Op.take n]
            | none => [])
        ++ [Op.tableDelete d.tableName]) ∧
    (∀ e e' : Expr,
      compileDelete ⟨"test", none, none, none, none⟩
        = [Op.seqScan "test", Op.tableDelete "test"] ∧
      compileDelete ⟨"test", some e, none, none, none⟩
        = [Op.seqScan "test", Op.filter e, Op.tableDelete "test"] ∧
      compileDelete ⟨"test", some e, none, some 20, none⟩
        = [Op.seqScan "test", Op.filter e, Op.skip 20, Op.tableDelete "test"] ∧
      compileDelete ⟨"test", none, none, none, some 10⟩
        = [Op.seqScan "test", Op.take 10, Op.tableDelete "test"] ∧
      compileDelete ⟨"test", some e, some e', some 20, none⟩
        = [Op.seqScan "test", Op.filter e, Op.tempTreeSort e', Op.skip 20,
           Op.tableDelete "test"] ∧
      compileDelete ⟨"test", some e, some e', some 20, some 10⟩
        = [Op.seqScan "test", Op.filter e, Op.tempTreeSort e', Op.skip 20,
           Op.take 10, Op.tableDelete "test"]) :=
  ⟨fun _ => rfl, fun _ _ => ⟨rfl, rfl, rfl, rfl, rfl, rfl⟩⟩

/-- The INSERT conflict resolutions the parser accepts. -/
inductive ConflictAction where
  | doNothingIgnore
  | doReplace
deriving DecidableEq, Repr

/-- Modelled from the spec: the ON CONFLICT clause parser — `DO NOTHING` and
`IGNORE` yield the ignore action, `DO REPLACE` and `REPLACE` the replace
action, anything else is a parse error (the parser is not under src/, only
its test `TestParserInsert`). -/
def parseOnConflict : List String → Except String (Option ConflictAction)
  | [] => Except.ok none
  | ["DO", "NOTHING"] => Except.ok (some .doNothingIgnore)
  | ["IGNORE"] => Except.ok (some .doNothingIgnore)
  | ["DO", "REPLACE"] => Except.ok (some .doReplace)
  | ["REPLACE"] => Except.ok (some .doReplace)
  | _ => Except.error "unsupported ON CONFLICT clause"

structure InsertAST where
  tableName : String
  source : List Op
  fieldNames : List String
  sourceIsSelect : Bool
  onConflict : Option ConflictAction
  returning : List Expr

/-- Modelled from the spec: INSERT compilation (§4.4) — the row source, then
`PathsRename` when target columns are named over a SELECT source,
`TableValidate`, the `OnConflict` operator when present, `TableInsert`,
per-index validation and insertion, and `Project` for RETURNING or
`Discard` otherwise (not under src/, only its parser test). -/
def compileInsert (ins : InsertAST) (u : String → Bool)
    (indexes : List String) : List Op :=
  ins.source
  ++ (if ins.sourceIsSelect && !ins.fieldNames.isEmpty then
        [Op.pathsRename ins.fieldNames]
      else [])
  ++ [Op.tableValidate ins.tableName]
  ++ (match ins.onConflict with
      | none => []
      | some .doNothingIgnore => [Op.onConflict none]
      | some .doReplace => [Op.onConflict (some [Op.tableReplace ins.tableName])])
  ++ [Op.tableInsert ins.tableName]
  ++ indexPipeOps u indexes
  ++ (if ins.returning.isEmpty then [Op.discard] else [Op.project ins.returning])

/-- C4: with an ON CONFLICT clause the `OnConflict` operator sits immediately
between `TableValidate` and `TableInsert`; DO NOTHING and IGNORE both give
`OnConflict(nil)`, DO REPLACE and REPLACE both give
`OnConflict(Stream(TableReplace(T)))`, and every other ON CONFLICT clause is
rejected at parse time.  The expected streams of the `TestParserInsert`
ON CONFLICT cases are reproduced. -/
theorem insert_on_conflict_semantics :
    (parseOnConflict ["DO", "NOTHING"] = Except.ok (some .doNothingIgnore) ∧
     parseOnConflict ["IGNORE"] = Except.ok (some .doNothingIgnore) ∧
     parseOnConflict ["DO", "REPLACE"] = Except.ok (some .doReplace) ∧
     parseOnConflict ["REPLACE"] = Except.ok (some .doReplace) ∧
     parseOnConflict ["BLA"] = Except.error "unsupported ON CONFLICT clause" ∧
     parseOnConflict ["DO", "BLA"]
       = Except.error "unsupported ON CONFLICT clause") ∧
    (∀ toks act, parseOnConflict toks = Except.ok act →
      (toks = [] ∧ act = none) ∨
      ((toks = ["DO", "NOTHING"] ∨ toks = ["IGNORE"]) ∧
        act = some .doNothingIgnore) ∨
      ((toks = ["DO", "REPLACE"] ∨ toks = ["REPLACE"]) ∧
        act = some .doReplace)) ∧
    (∀ (ins : InsertAST) (u : String → Bool) (indexes : List String) act,
      ins.onConflict = some act →
      compileInsert ins u indexes
        = ins.source
          ++ (if ins.sourceIsSelect && !ins.fieldNames.isEmpty then
                [Op.pathsRename ins.fieldNames]
              else [])
          ++ [Op.tableValidate ins.tableName,
              Op.onConflict (match act with
                | .doNothingIgnore => none
                | .doReplace => some [Op.tableReplace ins.tableName]),
              Op.tableInsert ins.tableName]
          ++ indexPipeOps u indexes
          ++ (if ins.returning.isEmpty then [Op.discard]
              else [Op.project ins.returning])) ∧
    (∀ (e estar : Expr) (u : String → Bool),
      compileInsert ⟨"test", [Op.emit [e]], ["a", "b"], false,
          some .doNothingIgnore, [estar]⟩ u []
        = [Op.emit [e], Op.tableValidate "test", Op.onConflict none,
           Op.tableInsert "test", Op.project [estar]] ∧
      compileInsert ⟨"test", [Op.emit [e]], ["a", "b"], false,
          some .doReplace, [estar]⟩ u []
        = [Op.emit [e], Op.tableValidate "test",
           Op.onConflict (some [Op.tableReplace "test"]),
           Op.tableInsert "test", Op.project [estar]]) := by
  refine ⟨⟨rfl, rfl, rfl, rfl, rfl, rfl⟩, ?_, ?_, ?_⟩
  · intro toks act h
    unfold parseOnConflict at h
    split at h
    · cases h; exact Or.inl ⟨rfl, rfl⟩
    · cases h; exact Or.inr (Or.inl ⟨Or.inl rfl, rfl⟩)
    · cases h; exact Or.inr (Or.inl ⟨Or.inr rfl, rfl⟩)
    · cases h; exact Or.inr (Or.inr ⟨Or.inl rfl, rfl⟩)
    · cases h; exact Or.inr (Or.inr ⟨Or.inr rfl, rfl⟩)
    · cases h
  · intro ins u indexes act hact
    cases act <;>
      simp [compileInsert, hact, List.append_assoc]
  · intro e estar u
    exact ⟨rfl, rfl⟩

/-- Witness for C4: the placement conjunct at a concrete INSERT with
ON CONFLICT DO REPLACE. -/
theorem insert_on_conflict_semantics_witness :
    compileInsert ⟨"test", [Op.emit [⟨0⟩]], ["a", "b"], false,
        some .doReplace, []⟩ (fun _ => false) []
      = [Op.emit [⟨0⟩]]
        ++ (if false && !(["a", "b"] : List String).isEmpty then
              [Op.pathsRename ["a", "b"]]
            else [])
        ++ [Op.tableValidate "test",
            Op.onConflict (some [Op.tableReplace "test"]),
            Op.tableInsert "test"]
        ++ indexPipeOps (fun _ => false) []
        ++ (if ([] : List Expr).isEmpty then [Op.discard]
            else [Op.project []]) :=
  insert_on_conflict_semantics.2.2.1
    ⟨"test", [Op.emit [⟨0⟩]], ["a", "b"], false, some .doReplace, []⟩
    (fun _ => false) [] .doReplace rfl

end Genji
